import Mathlib

/-!
Verification of the core kernel subsystems of the xv6-derived teaching OS
(pipe ring buffer, inode read/write, redo log, process wait, page-fault
policy, and the read/write system-call argument checks) against a shallow
embedding of the C sources under src/kernel.

Conventions of the embedding:
* machine integers become Nat (with an explicit mod 2^32 where the C uses
  overflowing uint arithmetic);
* a disk block is a byte map Nat to Nat (byte offset to byte value), a disk
  is a map from block number to block;
* C functions that mutate state become Lean functions from state to state;
  loops become fuel-indexed recursion returning none when an assertion in
  the C would panic or when a path is outside the modelled fragment.
-/

namespace Xv6

/-! ## Pipe layer (src/kernel/file.c, struct pipe in inc/file.h)

A pipe is a single kernel page.  sys_pipe sets pipe.buf to the start of the
page and the data area is indexed modulo bufSize = PGSIZE - sizeof(struct
pipe).  We model the page bytes as a total map buf : Nat to Nat and leave
bufSize a parameter (its concrete value depends on the C struct layout).
head and tail are the monotone counters of the source.
-/

/-- In-memory pipe state: the bytes of the pipe page (indexed from
pipe.buf), the monotone head and tail counters, and the open-endpoint
flags hasopenread / hasopenwrite. -/
structure PipeState where
  buf : Nat → Nat
  head : Nat
  tail : Nat
  hasopenread : Bool
  hasopenwrite : Bool

/-- Outcome of one pass through piperead: block on the channel derived from
the pipe, return 0 at end of file, or return cnt bytes copied out. -/
inductive PipeReadOut
  | sleepRd
  | eof
  | readBytes (cnt : Nat) (bytes : List Nat)
  deriving DecidableEq

/-- Result of piperead: the outcome together with the pipe state it leaves
behind. -/
structure PipeReadRes where
  out : PipeReadOut
  post : PipeState

/-- Outcome of one pass through pipewrite: -1 because the read side is
closed, block because the buffer is full, or return cnt bytes written. -/
inductive PipeWriteOut
  | errClosed
  | sleepWr
  | wrote (cnt : Nat)
  deriving DecidableEq

/-- Result of pipewrite: the outcome together with the pipe state it leaves
behind. -/
structure PipeWriteRes where
  out : PipeWriteOut
  post : PipeState

/-- memmove of len bytes into the byte map dstBuf at offset dstOff, taking
the bytes src srcOff, src (srcOff+1), ... -/
def writeBytes (dstBuf : Nat → Nat) (dstOff : Nat) (src : Nat → Nat)
    (srcOff len : Nat) : Nat → Nat :=
  fun i => if dstOff ≤ i ∧ i < dstOff + len then src (srcOff + (i - dstOff)) else dstBuf i

/-- One pass through piperead (src/kernel/file.c, lines 189-228).  While
head = tail it sleeps if the write side is open and returns 0 (EOF)
otherwise; else it copies min n (tail - head) bytes with a single memmove
from pipe.buf + head % bufSize and advances head by that count. -/
def piperead (bufSize : Nat) (p : PipeState) (n : Nat) : PipeReadRes :=
  if p.head = p.tail then
    if p.hasopenwrite then ⟨.sleepRd, p⟩ else ⟨.eof, p⟩
  else if p.tail - p.head < n then
    ⟨.readBytes (p.tail - p.head)
      ((List.range (p.tail - p.head)).map fun i => p.buf (p.head % bufSize + i)),
     { p with head := p.head + (p.tail - p.head) }⟩
  else
    ⟨.readBytes n ((List.range n).map fun i => p.buf (p.head % bufSize + i)),
     { p with head := p.head + n }⟩

/-- One pass through pipewrite (src/kernel/file.c, lines 233-296).  Returns
-1 if the read side is closed and blocks while tail - head = bufSize.  If
the n bytes do not fit before the physical end of the buffer it fills the
end, then circles back to the front of the buffer, restarting from source
offset 0 (exactly as the C memmove calls do) and writing at most
head % bufSize bytes there; otherwise a single memmove of n bytes at
tail % bufSize.  tail advances by the returned count. -/
def pipewrite (bufSize : Nat) (p : PipeState) (src : Nat → Nat) (n : Nat) :
    PipeWriteRes :=
  if ¬ p.hasopenread then ⟨.errClosed, p⟩
  else if p.tail - p.head = bufSize then ⟨.sleepWr, p⟩
  else if bufSize - p.tail % bufSize < n then
    let startToHead := p.head % bufSize
    let tailToEnd := bufSize - p.tail % bufSize
    let buf1 := writeBytes p.buf (p.tail % bufSize) src 0 tailToEnd
    let remaining := n - tailToEnd
    if remaining < startToHead then
      ⟨.wrote (tailToEnd + remaining),
       { p with buf := writeBytes buf1 0 src 0 remaining,
                tail := p.tail + tailToEnd + remaining }⟩
    else
      ⟨.wrote (tailToEnd + startToHead),
       { p with buf := writeBytes buf1 0 src 0 startToHead,
                tail := p.tail + tailToEnd + startToHead }⟩
  else
    ⟨.wrote n, { p with buf := writeBytes p.buf (p.tail % bufSize) src 0 n,
                        tail := p.tail + n }⟩

/-- C6: piperead on an empty pipe with the write side closed returns 0 (EOF)
leaving the pipe unchanged; on a non-empty pipe it copies exactly
min n (tail - head) bytes taken from the pipe buffer at consecutive offsets
head % bufSize, head % bufSize + 1, ..., advances head by that count
(tail and the buffer bytes unchanged), and returns that count. -/
theorem piperead_spec (bufSize : Nat) (p : PipeState) (n : Nat)
    (hht : p.head ≤ p.tail) :
    (p.head = p.tail → p.hasopenwrite = false → piperead bufSize p n = ⟨.eof, p⟩)
    ∧ (p.head ≠ p.tail →
        piperead bufSize p n =
          ⟨.readBytes (min n (p.tail - p.head))
            ((List.range (min n (p.tail - p.head))).map fun i =>
              p.buf (p.head % bufSize + i)),
           { p with head := p.head + min n (p.tail - p.head) }⟩) := by
  constructor
  · intro he hw
    simp [piperead, he, hw]
  · intro hne
    by_cases hlt : p.tail - p.head < n
    · have hmin : min n (p.tail - p.head) = p.tail - p.head := by omega
      simp [piperead, hne, hlt, hmin]
    · have hmin : min n (p.tail - p.head) = n := by omega
      simp [piperead, hne, hlt, hmin]

/-- Witness for piperead_spec: for the concrete pipe with identity page
bytes, head = 1, tail = 3 and bufSize = 4, a read of 5 bytes returns the 2
available bytes, which are the page bytes at offsets 1 and 2. -/
theorem piperead_spec_witness :
    (piperead 4 ⟨fun i => i, 1, 3, true, true⟩ 5).out = .readBytes 2 [1, 2] := by
  have h := (piperead_spec 4 ⟨fun i => i, 1, 3, true, true⟩ 5 (by decide)).2 (by decide)
  rw [h]
  decide

/-- C4 fails on the code: starting from head = 3, tail = 4 (tail - head = 1,
inside [0, bufSize] for bufSize = 4) with the read side open, pipewrite of
n = 4 bytes takes the no-wrap branch (bufSize - tail % bufSize = 4, not < 4)
and advances tail by all 4 bytes, leaving tail - head = 5 > bufSize. -/
theorem pipewrite_overfill_cx :
    (pipewrite 4 ⟨fun _ => 0, 3, 4, true, true⟩ (fun _ => 0) 4).post.tail
      - (pipewrite 4 ⟨fun _ => 0, 3, 4, true, true⟩ (fun _ => 0) 4).post.head = 5
    ∧ ¬ ((pipewrite 4 ⟨fun _ => 0, 3, 4, true, true⟩ (fun _ => 0) 4).post.tail
      - (pipewrite 4 ⟨fun _ => 0, 3, 4, true, true⟩ (fun _ => 0) 4).post.head ≤ 4) := by
  decide

/-- C4 amended: piperead always preserves head ≤ tail ≤ head + bufSize, and
pipewrite preserves it whenever the requested length n is at most the free
space bufSize - (tail - head); an over-length pipewrite can push tail past
head + bufSize (see the counterexample). -/
theorem pipe_counter_invariant (bufSize : Nat) (p : PipeState) (src : Nat → Nat)
    (n m : Nat) (hht : p.head ≤ p.tail) (hinv : p.tail - p.head ≤ bufSize)
    (hn : n ≤ bufSize - (p.tail - p.head)) :
    ((piperead bufSize p m).post.head ≤ (piperead bufSize p m).post.tail
      ∧ (piperead bufSize p m).post.tail - (piperead bufSize p m).post.head ≤ bufSize)
    ∧ ((pipewrite bufSize p src n).post.head ≤ (pipewrite bufSize p src n).post.tail
      ∧ (pipewrite bufSize p src n).post.tail - (pipewrite bufSize p src n).post.head
        ≤ bufSize) := by
  refine ⟨?_, ?_⟩
  · unfold piperead
    split_ifs <;> simp <;> omega
  · simp only [pipewrite]
    split_ifs <;> simp <;> omega

/-- Witness for pipe_counter_invariant: the concrete pipe with head = 1,
tail = 3, bufSize = 4 satisfies the hypotheses with a write of 2 bytes and a
read of 7 bytes, and both resulting states satisfy the invariant. -/
theorem pipe_counter_invariant_witness :
    ((piperead 4 ⟨fun _ => 0, 1, 3, true, true⟩ 7).post.head
        ≤ (piperead 4 ⟨fun _ => 0, 1, 3, true, true⟩ 7).post.tail
      ∧ (piperead 4 ⟨fun _ => 0, 1, 3, true, true⟩ 7).post.tail
        - (piperead 4 ⟨fun _ => 0, 1, 3, true, true⟩ 7).post.head ≤ 4)
    ∧ ((pipewrite 4 ⟨fun _ => 0, 1, 3, true, true⟩ (fun _ => 5) 2).post.head
        ≤ (pipewrite 4 ⟨fun _ => 0, 1, 3, true, true⟩ (fun _ => 5) 2).post.tail
      ∧ (pipewrite 4 ⟨fun _ => 0, 1, 3, true, true⟩ (fun _ => 5) 2).post.tail
        - (pipewrite 4 ⟨fun _ => 0, 1, 3, true, true⟩ (fun _ => 5) 2).post.head ≤ 4) :=
  pipe_counter_invariant 4 ⟨fun _ => 0, 1, 3, true, true⟩ (fun _ => 5) 2 7
    (by decide) (by decide) (by decide)

/-- C5 fails on the code (the design notes flag this source bug): with
bufSize = 4, head = 2, tail = 3 and source bytes 10, 20, 30, pipewrite of
n = 3 returns 3 and advances tail to 6, but the wrap-around branch restarts
copying from source offset 0, so ring position 0 receives byte 10 again and
position 1 byte 20, instead of the claimed continuation bytes 20 and 30: the
appended bytes are not the first 3 source bytes in order. -/
theorem pipewrite_wrap_bug_demo :
    (pipewrite 4 ⟨fun _ => 99, 2, 3, true, true⟩ (fun i => 10 * (i + 1)) 3).out
        = .wrote 3
    ∧ (pipewrite 4 ⟨fun _ => 99, 2, 3, true, true⟩ (fun i => 10 * (i + 1)) 3).post.tail
        = 6
    ∧ (pipewrite 4 ⟨fun _ => 99, 2, 3, true, true⟩ (fun i => 10 * (i + 1)) 3).post.buf 3
        = 10
    ∧ (pipewrite 4 ⟨fun _ => 99, 2, 3, true, true⟩ (fun i => 10 * (i + 1)) 3).post.buf 0
        = 10
    ∧ (pipewrite 4 ⟨fun _ => 99, 2, 3, true, true⟩ (fun i => 10 * (i + 1)) 3).post.buf 1
        = 20
    ∧ (pipewrite 4 ⟨fun _ => 99, 2, 3, true, true⟩ (fun i => 10 * (i + 1)) 3).post.buf 0
        ≠ 20 := by
  decide

/-! ## read/write system calls (src/kernel/sysfile.c)

sys_read and sys_write validate their arguments in order: fetch fd
(argint), fetch n (argint) and require n > 0, fetch the buffer pointer
(argptr), bound-check fd against NOFILE = 16, look the descriptor up in the
per-process table and check its permission; only then dispatch to
fileread/filewrite.  The argint/argptr fetches are modelled by success
flags, the file table by a map from fd to the permission of the slot (none
for a NULL slot).  The result pairs the returned value with a flag telling
whether fileread/filewrite was reached (the file offset is advanced only
inside fileread/filewrite, so a false flag means the offset is untouched).
-/

/-- Open-mode constants of fcntl.h (fcntl.h is not part of src/; the
theorems below do not depend on these values). -/
def O_RDONLY : Int := 0

/-- Write-only open mode. -/
def O_WRONLY : Int := 1

/-- Read-write open mode. -/
def O_RDWR : Int := 2

/-- sys_read (src/kernel/sysfile.c, lines 54-83): argument validation and
dispatch.  freadRes stands for the value fileread would return. -/
def sys_read (fdOk : Bool) (fd : Int) (nOk : Bool) (n : Int) (ptrOk : Bool)
    (files : Int → Option Int) (freadRes : Int) : Int × Bool :=
  if ¬ fdOk then (-1, false)
  else if ¬ nOk ∨ n ≤ 0 then (-1, false)
  else if ¬ ptrOk then (-1, false)
  else if 16 ≤ fd ∨ fd < 0 then (-1, false)
  else
    match files fd with
    | none => (-1, false)
    | some perm =>
        if perm ≠ O_RDONLY ∧ perm ≠ O_RDWR then (-1, false) else (freadRes, true)

/-- sys_write (src/kernel/sysfile.c, lines 85-113): argument validation and
dispatch.  fwriteRes stands for the value filewrite would return. -/
def sys_write (fdOk : Bool) (fd : Int) (nOk : Bool) (n : Int) (ptrOk : Bool)
    (files : Int → Option Int) (fwriteRes : Int) : Int × Bool :=
  if ¬ fdOk then (-1, false)
  else if ¬ nOk ∨ n ≤ 0 then (-1, false)
  else if ¬ ptrOk then (-1, false)
  else if 16 ≤ fd ∨ fd < 0 then (-1, false)
  else
    match files fd with
    | none => (-1, false)
    | some perm =>
        if perm ≠ O_WRONLY ∧ perm ≠ O_RDWR then (-1, false) else (fwriteRes, true)

/-- C10: every read or write system call with n ≤ 0 — in particular n = 0 —
returns -1 without dispatching to fileread/filewrite, so no bytes are
transferred and the file offset (only advanced inside fileread/filewrite)
is unchanged; n = 0 is rejected by the same n ≤ 0 test as a negative
length. -/
theorem sys_rw_zero_len_rejected (fdOk : Bool) (fd : Int) (nOk : Bool)
    (n : Int) (ptrOk : Bool) (files : Int → Option Int) (res : Int)
    (hn : n ≤ 0) :
    sys_read fdOk fd nOk n ptrOk files res = (-1, false)
    ∧ sys_write fdOk fd nOk n ptrOk files res = (-1, false) := by
  constructor <;> · simp only [sys_read, sys_write]
                    split_ifs <;> first | rfl | omega

/-- Witness for sys_rw_zero_len_rejected at n = 0 with all fetches
succeeding and a valid readable/writable descriptor 3. -/
theorem sys_rw_zero_len_rejected_witness :
    sys_read true 3 true 0 true (fun _ => some O_RDWR) 7 = (-1, false)
    ∧ sys_write true 3 true 0 true (fun _ => some O_RDWR) 7 = (-1, false) :=
  sys_rw_zero_len_rejected true 3 true 0 true (fun _ => some O_RDWR) 7 (by decide)

/-! ## Page-fault handling (src/kernel/trap.c, default branch for TRAP_PF)

The x86 page-fault error code has bit 0 = present, bit 1 = write,
bit 2 = user.  The handler consults the faulting address (cr2), the
user-stack region of the current vspace, and the vpage_info of the address.
The results of the vspace helpers (va2vregion, va2vpage_info, the swapped
and is_cow flags), which live outside src/, are inputs of the model; the
branching itself is taken verbatim from trap.c.
-/

/-- PGROUNDDOWN(a) for PGSIZE = 4096. -/
def pgRoundDown (a : Nat) : Nat := 4096 * (a / 4096)

/-- Inputs of the page-fault branch of trap: the error code and faulting
address, the user-stack region bounds (va_base and size), and the answers
of the vspace lookups for the faulting address. -/
structure PageFaultCtx where
  err : Nat
  addr : Nat
  stackBase : Nat
  stackSize : Nat
  regionFound : Bool
  vpiFound : Bool
  swapped : Bool
  isCow : Bool
  procNull : Bool
  csUser : Bool
  deriving DecidableEq

/-- Action the page-fault branch of trap resolves to: swap the page in,
grow the user stack (vregionaddmap of size bytes at base with
writable = user = 1), resolve a copy-on-write fault, kill the process, or
panic. -/
inductive PFAction
  | swapIn
  | growStack (base size : Nat) (writable user : Bool)
  | cowCopy
  | killProc
  | kpanic
  deriving DecidableEq

/-- The page-fault branch of trap (src/kernel/trap.c, lines 79-163): first
the swap-in path for user not-present faults on swapped pages, then the
stack-growth path for any not-present fault strictly between
va_base - 10 * PGSIZE and va_base, then the copy-on-write path for
user write-protection faults, and otherwise panic in kernel mode or mark
the process killed. -/
def trapPageFault (c : PageFaultCtx) : PFAction :=
  if c.err &&& 5 = 4 ∧ c.regionFound ∧ c.vpiFound ∧ c.swapped then
    .swapIn
  else if c.err &&& 1 = 0 ∧ c.addr < c.stackBase
      ∧ c.stackBase - 10 * 4096 < c.addr then
    .growStack (pgRoundDown c.addr)
      (c.stackBase - c.stackSize - pgRoundDown c.addr) true true
  else if c.err &&& 3 = 3 then
    if ¬ c.regionFound then .kpanic
    else if ¬ c.vpiFound then .kpanic
    else if c.isCow then .cowCopy
    else if c.procNull ∨ ¬ c.csUser then .kpanic
    else .killProc
  else if c.procNull ∨ ¬ c.csUser then .kpanic
  else .killProc

/-- The condition under which the swap-in path captures the fault before
the stack-growth test is reached. -/
def swapPathTaken (c : PageFaultCtx) : Prop :=
  c.err &&& 5 = 4 ∧ c.regionFound ∧ c.vpiFound ∧ c.swapped

instance (c : PageFaultCtx) : Decidable (swapPathTaken c) := by
  unfold swapPathTaken
  infer_instance

/-- C9 fails on the code: a user-mode not-present READ fault (error code 4:
user, read, not present) at an address in the growth window, not on a
swapped page, also grows the stack — the handler tests only the present bit
(err AND 1 = 0), never the write bit, so the stack is not grown only for
write faults as claimed.  Here err AND 2 = 0 marks the fault as a read. -/
theorem stackgrow_read_fault_cx :
    trapPageFault
        ⟨4, 2147475464, 2147483648, 4096, true, true, false, false, false, true⟩
      = .growStack 2147475456 4096 true true
    ∧ (4 : Nat) &&& 2 = 0 := by
  decide

/-- C9 amended: the handler grows the stack for every not-present fault
(read or write alike) at an address strictly between va_base - 10 * PGSIZE
and va_base that the swap-in path did not capture, mapping writable user
pages from the rounded-down faulting address up to the old stack bottom and
resuming (never killing); and it grows the stack only for faults satisfying
exactly that condition.  In particular every user not-present write fault
in the window on a non-swapped page grows the stack as the claim states. -/
theorem stack_growth_spec (c : PageFaultCtx)
    (hns : ¬ swapPathTaken c) :
    (c.err &&& 1 = 0 → c.addr < c.stackBase → c.stackBase - 10 * 4096 < c.addr →
      trapPageFault c = .growStack (pgRoundDown c.addr)
        (c.stackBase - c.stackSize - pgRoundDown c.addr) true true)
    ∧ (∀ b s w u, trapPageFault c = .growStack b s w u →
        c.err &&& 1 = 0 ∧ c.addr < c.stackBase ∧ c.stackBase - 10 * 4096 < c.addr) := by
  unfold swapPathTaken at hns
  constructor
  · intro h1 h2 h3
    rw [trapPageFault, if_neg hns, if_pos ⟨h1, h2, h3⟩]
  · intro b s w u h
    by_cases hw : c.err &&& 1 = 0 ∧ c.addr < c.stackBase
        ∧ c.stackBase - 10 * 4096 < c.addr
    · exact hw
    · exfalso
      rw [trapPageFault, if_neg hns, if_neg hw] at h
      split_ifs at h

/-- Witness for stack_growth_spec: a user not-present write fault (error
code 6) one page below the stack bottom, with no swapped page, grows the
stack by one writable user page down to the faulting page. -/
theorem stack_growth_spec_witness :
    trapPageFault
        ⟨6, 2147475460, 2147483648, 4096, false, false, false, false, false, true⟩
      = .growStack 2147475456 4096 true true :=
  (stack_growth_spec
      ⟨6, 2147475460, 2147483648, 4096, false, false, false, false, false, true⟩
      (by decide)).1 (by decide) (by decide) (by decide)

/-! ## wait and findzombiechild (src/kernel/proc.c, lines 197-242)

findzombiechild scans the process table; for each slot whose parent pid
(the value the C reads through p.parent) equals the argument pid it notes
haschild = true and returns that slot pid at the first ZOMBIE; after the
scan it returns -1 if haschild is false and 0 otherwise.  The C local
bool haschild is never initialized: its value when no slot matches is
whatever was on the stack, modelled by the extra parameter hinit.  wait
then reaps (pid > 0), returns -1 (pid = -1), or sleeps on the caller pid
(pid = 0) and rescans.
-/

/-- Process states of proc.h. -/
inductive PState
  | unused
  | embryo
  | sleeping
  | runnable
  | running
  | zombie
  deriving DecidableEq

/-- One process-table slot: its pid, state, and the pid its parent pointer
leads to (the value p.parent-arrow-pid reads). -/
structure ProcEnt where
  pid : Nat
  pstate : PState
  ppid : Nat
  deriving DecidableEq

/-- The scan loop of findzombiechild; h carries the current value of the C
local haschild, whose initial value (for the empty-prefix case) is the
uninitialized stack content. -/
def fzcLoop (pid : Nat) : List ProcEnt → Bool → Int
  | [], h => if h then 0 else -1
  | p :: rest, h =>
      if p.ppid = pid then
        if p.pstate = .zombie then (p.pid : Int) else fzcLoop pid rest true
      else fzcLoop pid rest h

/-- findzombiechild (src/kernel/proc.c, lines 197-213), with hinit the
indeterminate initial value of the uninitialized local haschild. -/
def findzombiechild (pid : Nat) (tbl : List ProcEnt) (hinit : Bool) : Int :=
  fzcLoop pid tbl hinit

/-- What one pass of the wait loop (src/kernel/proc.c, lines 227-242) does:
return -1, sleep on the channel equal to the caller pid, or reap the found
zombie child (freeproc frees its kernel stack and vspace and marks the slot
UNUSED) and return its pid. -/
inductive WaitOutcome
  | ret (v : Int)
  | sleepOn (chan : Nat)
  | reap (childPid : Int)
  deriving DecidableEq

/-- One pass of wait: call findzombiechild; a positive pid is reaped and
returned, -1 is returned as is, 0 sends the caller to sleep on its own
pid. -/
def waitStep (callerPid : Nat) (tbl : List ProcEnt) (hinit : Bool) :
    WaitOutcome :=
  let r := findzombiechild callerPid tbl hinit
  if r ≤ 0 then
    if r = -1 then .ret (-1) else .sleepOn callerPid
  else .reap r

/-- C8 fails on the code: for a caller (pid 5) with no children at all
(no table slot has parent pid 5), the result of wait depends on the
uninitialized local haschild of findzombiechild — if the garbage on the
stack reads as true, findzombiechild returns 0 and wait sleeps forever on
pid 5 instead of returning -1; only if it happens to read as false does
wait return -1 as the claim (and the comment above wait in the source)
requires. -/
theorem wait_uninit_haschild_demo :
    waitStep 5 [⟨5, .running, 1⟩, ⟨3, .runnable, 1⟩] true = .sleepOn 5
    ∧ waitStep 5 [⟨5, .running, 1⟩, ⟨3, .runnable, 1⟩] false = .ret (-1)
    ∧ waitStep 5 [⟨5, .running, 1⟩, ⟨7, .zombie, 5⟩] true = .reap 7
    ∧ waitStep 5 [⟨5, .running, 1⟩, ⟨7, .zombie, 5⟩] false = .reap 7
    ∧ waitStep 5 [⟨5, .running, 1⟩, ⟨7, .running, 5⟩] false = .sleepOn 5 := by
  decide

/-! ## Redo log (src/kernel/fs.c: begin_tx, log_write, commit_tx, iinit)

The log lives at blocks logstart .. logstart + 19: the log_meta record
(struct log_meta { short commited; uint nchanges; uint blocknos[19] },
whose C size with alignment padding is 2 + 2 + 4 + 76 = 84 bytes) in block
logstart, followed by up to 19 shadow blocks.  The disk model keeps the
log_meta record structurally and all blocks as byte maps.  Both commit_tx
and the boot recovery in iinit run the same copy loop, differing only in
the memmove length: recovery copies BSIZE = 512 bytes per shadow block,
while commit_tx copies only sizeof(struct log_meta) = 84 bytes — the
copy-length argument of commit_tx is a slip in the source.
-/

/-- The log_meta record stored in block logstart.  The field name commited
follows the spelling of the source. -/
structure LogMeta where
  commited : Nat
  nchanges : Nat
  blocknos : Nat → Nat

/-- Disk state seen by the log code: the log_meta record (block logstart)
plus the byte contents of every block. -/
structure LogDisk where
  meta : LogMeta
  blk : Nat → Nat → Nat

/-- memmove of len bytes from the start of block src over the start of
block dst, keeping the tail of dst. -/
def copyBytes (dst src : Nat → Nat) (len : Nat) : Nat → Nat :=
  fun o => if o < len then src o else dst o

/-- bwrite of a whole block: replace block b of the disk with content. -/
def writeBlk (d : Nat → Nat → Nat) (b : Nat) (content : Nat → Nat) :
    Nat → Nat → Nat :=
  fun b' => if b' = b then content else d b'

/-- One iteration of the copy loop shared by commit_tx and recovery: read
home block bn j and shadow block logstart + 1 + j, copy the first sz bytes
of the shadow over the home block, and write the home block back. -/
def applyLogCopy (logstart sz : Nat) (bn : Nat → Nat) (bs : Nat → Nat → Nat)
    (j : Nat) : Nat → Nat → Nat :=
  writeBlk bs (bn j) (copyBytes (bs (bn j)) (bs (logstart + 1 + j)) sz)

/-- The copy loop for j = 0 .. len - 1 (sz = 84 in commit_tx, sz = 512 in
the recovery loop of iinit). -/
def replayRange (logstart sz : Nat) (bn : Nat → Nat) (len : Nat)
    (blk : Nat → Nat → Nat) : Nat → Nat → Nat :=
  (List.range len).foldl (applyLogCopy logstart sz bn) blk

/-- begin_tx (src/kernel/fs.c, lines 660-674): after taking the log lock it
writes a zeroed log_meta to block logstart. -/
def begin_tx (d : LogDisk) : LogDisk :=
  { d with meta := ⟨0, 0, fun _ => 0⟩ }

/-- log_write (src/kernel/fs.c, lines 718-745): record the home block
number in blocknos[nchanges], bump nchanges, write the full BSIZE bytes of
the buffer into shadow block logstart + nchanges (the already-bumped
value), and flush the updated log_meta.  content holds the BSIZE buffer
bytes being staged. -/
def log_write (logstart : Nat) (d : LogDisk) (blockno : Nat)
    (content : Nat → Nat) : LogDisk :=
  let log := d.meta
  let k := log.nchanges
  { meta := { commited := log.commited, nchanges := k + 1,
              blocknos := fun j => if j = k then blockno else log.blocknos j },
    blk := writeBlk d.blk (logstart + 1 + k)
             (copyBytes (d.blk (logstart + 1 + k)) content 512) }

/-- commit_tx (src/kernel/fs.c, lines 676-716): flush log_meta with
commited = 1 (the commit point), then run the copy loop — whose memmove
length in the source is sizeof(struct log_meta) = 84, not BSIZE — and
finally flush a zeroed log_meta. -/
def commit_tx (logstart : Nat) (d : LogDisk) : LogDisk :=
  let log := d.meta
  let d1 : LogDisk := { d with meta := { log with commited := 1 } }
  let blk2 := replayRange logstart 84 log.blocknos log.nchanges d1.blk
  { meta := ⟨0, 0, fun _ => 0⟩, blk := blk2 }

/-- The recovery step of iinit (src/kernel/fs.c, lines 123-147): read
log_meta; if commited = 1, copy each of the nchanges shadow blocks (full
BSIZE bytes) onto its recorded home block and then write a zeroed log_meta;
if commited is not 1 the disk is left untouched — in particular log_meta is
NOT cleared. -/
def iinitRecover (logstart : Nat) (d : LogDisk) : LogDisk :=
  if d.meta.commited = 1 then
    { meta := ⟨0, 0, fun _ => 0⟩,
      blk := replayRange logstart 512 d.meta.blocknos d.meta.nchanges d.blk }
  else d

/-- A block never named as a home block is untouched by the copy loop. -/
theorem replayRange_ne (logstart sz : Nat) (bn : Nat → Nat) :
    ∀ (len : Nat) (blk : Nat → Nat → Nat) (b : Nat), (∀ j < len, b ≠ bn j) →
      replayRange logstart sz bn len blk b = blk b := by
  intro len
  induction len with
  | zero => intro blk b _; rfl
  | succ k ih =>
      intro blk b h
      unfold replayRange
      rw [List.range_succ, List.foldl_append, List.foldl_cons, List.foldl_nil]
      have hb : b ≠ bn k := h k (Nat.lt_succ_self k)
      show applyLogCopy logstart sz bn (replayRange logstart sz bn k blk) k b = blk b
      rw [applyLogCopy, writeBlk]
      simp only [if_neg hb]
      exact ih blk b fun j hj => h j (Nat.lt_succ_of_lt hj)

/-- After the copy loop, home block bn j holds the first sz bytes of shadow
block logstart + 1 + j over its own old tail, provided the home blocks are
pairwise distinct and lie outside the log area. -/
theorem replayRange_home (logstart sz : Nat) (bn : Nat → Nat) :
    ∀ (len : Nat) (blk : Nat → Nat → Nat),
      (∀ j < len, bn j < logstart ∨ logstart + 1 + len ≤ bn j) →
      (∀ i < len, ∀ j < len, i ≠ j → bn i ≠ bn j) →
      ∀ j < len, ∀ o,
        replayRange logstart sz bn len blk (bn j) o =
          if o < sz then blk (logstart + 1 + j) o else blk (bn j) o := by
  intro len
  induction len with
  | zero => intro blk _ _ j hj; omega
  | succ k ih =>
      intro blk hout hdis j hj o
      unfold replayRange
      rw [List.range_succ, List.foldl_append, List.foldl_cons, List.foldl_nil]
      show applyLogCopy logstart sz bn (replayRange logstart sz bn k blk) k (bn j) o
        = if o < sz then blk (logstart + 1 + j) o else blk (bn j) o
      rw [applyLogCopy, writeBlk]
      rcases Nat.lt_succ_iff_lt_or_eq.mp hj with hjk | hjk
      · have hne : bn j ≠ bn k := hdis j hj k (Nat.lt_succ_self k) (by omega)
        simp only [if_neg hne]
        rw [ih blk (fun i hi => by have := hout i (Nat.lt_succ_of_lt hi); omega)
              (fun a ha b hb hab =>
                hdis a (Nat.lt_succ_of_lt ha) b (Nat.lt_succ_of_lt hb) hab)
              j hjk o]
      · subst hjk
        simp only [if_pos rfl, if_true]
        simp only [copyBytes]
        have hsh : ∀ i < j, (logstart + 1 + j : Nat) ≠ bn i := by
          intro i hi
          have := hout i (Nat.lt_succ_of_lt hi)
          omega
        have hho : ∀ i < j, (bn j : Nat) ≠ bn i := by
          intro i hi
          exact fun hcon =>
            hdis j (Nat.lt_succ_self j) i (Nat.lt_succ_of_lt hi) (by omega) hcon
        rw [replayRange_ne logstart sz bn j blk (logstart + 1 + j) hsh,
            replayRange_ne logstart sz bn j blk (bn j) hho]

/-- C2 fails on the code (code bug): stage one block (home block 50, old
bytes all 9) whose new content is 7 on bytes 0..83 and 8 from byte 84 on;
after commit_tx the home block holds the staged bytes only up to offset 83
— byte 100 still reads the old value 9, not the staged 8 — because the
memmove in the commit loop copies sizeof(struct log_meta) = 84 bytes
instead of BSIZE = 512 (the recovery loop in iinit and log_write itself
both use BSIZE).  The final log_meta is correctly cleared. -/
theorem commit_tx_partial_copy_demo :
    (commit_tx 1000 (log_write 1000 ⟨⟨0, 0, fun _ => 0⟩,
        fun b _ => if b = 50 then 9 else 0⟩ 50
        (fun o => if o < 84 then 7 else 8))).blk 50 0 = 7
    ∧ (commit_tx 1000 (log_write 1000 ⟨⟨0, 0, fun _ => 0⟩,
        fun b _ => if b = 50 then 9 else 0⟩ 50
        (fun o => if o < 84 then 7 else 8))).blk 50 100 = 9
    ∧ (fun o => if o < 84 then (7 : Nat) else 8) 100 = 8
    ∧ (commit_tx 1000 (log_write 1000 ⟨⟨0, 0, fun _ => 0⟩,
        fun b _ => if b = 50 then 9 else 0⟩ 50
        (fun o => if o < 84 then 7 else 8))).blk 50 100 ≠ 8
    ∧ (commit_tx 1000 (log_write 1000 ⟨⟨0, 0, fun _ => 0⟩,
        fun b _ => if b = 50 then 9 else 0⟩ 50
        (fun o => if o < 84 then 7 else 8))).meta.nchanges = 0 := by
  decide

/-- C3 fails on the code: on a boot disk whose log_meta has commited = 0
and nchanges = 5, iinit leaves the disk — including log_meta — completely
unchanged (nchanges stays 5); the clearing write is inside the
commited = 1 branch only, so an uncommitted log_meta is not cleared as the
claim states. -/
theorem iinit_uncommitted_noclear_cx :
    iinitRecover 1000 ⟨⟨0, 5, fun _ => 3⟩, fun _ _ => 4⟩
        = ⟨⟨0, 5, fun _ => 3⟩, fun _ _ => 4⟩
    ∧ (iinitRecover 1000 ⟨⟨0, 5, fun _ => 3⟩, fun _ _ => 4⟩).meta.nchanges = 5
    ∧ (iinitRecover 1000 ⟨⟨0, 5, fun _ => 3⟩, fun _ _ => 4⟩).meta.nchanges ≠ 0 :=
  ⟨rfl, rfl, by decide⟩

/-- C3 amended: boot recovery reads log_meta; if commited = 1 it copies
each of the nchanges shadow blocks (all 512 bytes) onto its recorded home
block, leaves every other block untouched, and writes a cleared log_meta
back; if commited is not 1 it does nothing at all — it neither replays nor
clears log_meta.  (Stated for well-formed logs: at most 19 entries, home
blocks pairwise distinct and outside the 20-block log area.) -/
theorem iinit_recovery_spec (logstart : Nat) (d : LogDisk)
    (hlen : d.meta.nchanges ≤ 19)
    (hout : ∀ j < d.meta.nchanges,
      d.meta.blocknos j < logstart ∨ logstart + 20 ≤ d.meta.blocknos j)
    (hdis : ∀ i < d.meta.nchanges, ∀ j < d.meta.nchanges,
      i ≠ j → d.meta.blocknos i ≠ d.meta.blocknos j) :
    (d.meta.commited = 1 →
      (iinitRecover logstart d).meta.commited = 0
      ∧ (iinitRecover logstart d).meta.nchanges = 0
      ∧ (∀ j < d.meta.nchanges, ∀ o < 512,
          (iinitRecover logstart d).blk (d.meta.blocknos j) o
            = d.blk (logstart + 1 + j) o)
      ∧ (∀ b, (∀ j < d.meta.nchanges, b ≠ d.meta.blocknos j) →
          (iinitRecover logstart d).blk b = d.blk b))
    ∧ (d.meta.commited ≠ 1 → iinitRecover logstart d = d) := by
  constructor
  · intro hc
    rw [iinitRecover, if_pos hc]
    refine ⟨rfl, rfl, ?_, ?_⟩
    · intro j hj o ho
      show replayRange logstart 512 d.meta.blocknos d.meta.nchanges d.blk
          (d.meta.blocknos j) o = d.blk (logstart + 1 + j) o
      rw [replayRange_home logstart 512 d.meta.blocknos d.meta.nchanges d.blk
            (fun i hi => by have := hout i hi; omega) hdis j hj o, if_pos ho]
    · intro b hb
      exact replayRange_ne logstart 512 d.meta.blocknos d.meta.nchanges d.blk b hb
  · intro hc
    rw [iinitRecover, if_neg hc]

/-- Witness for iinit_recovery_spec: a committed log with two entries (home
blocks 50 and 60, shadows at 1001 and 1002); after recovery, byte 5 of home
block 50 equals byte 5 of shadow block 1001, namely 105. -/
theorem iinit_recovery_spec_witness :
    (iinitRecover 1000 ⟨⟨1, 2, fun j => if j = 0 then 50 else if j = 1 then 60 else 0⟩,
        fun b o => if b = 1001 then 100 + o else if b = 1002 then 200 + o else 7⟩).blk
        50 5 = 105 := by
  have h := (iinit_recovery_spec 1000
      ⟨⟨1, 2, fun j => if j = 0 then 50 else if j = 1 then 60 else 0⟩,
        fun b o => if b = 1001 then 100 + o else if b = 1002 then 200 + o else 7⟩
      (by decide) (by decide) (by decide)).1 rfl
  exact h.2.2.1 0 (by decide) 5 (by decide)

/-! ## readi (src/kernel/fs.c, lines 296-336)

An inode records its data in six extents (startblkno, nblocks).  readi
first rejects off > size and uint32 overflow of off + n, clips n to
size - off, and then walks file blocks foff = 0, 1, ... through the extent
array (extno, extoff), skipping until foff reaches off / BSIZE and then
copying min(n - tot, BSIZE - off % BSIZE) bytes per block.  The loop
asserts nblocks > 0 for the extent at hand and extno < 5 before moving to
the next extent; the embedding returns none where an assert would panic.
The device branch (ip->type == T_DEV dispatches to the devsw table) is
outside the modelled fragment — the claim is about non-device inodes.
Extents are a 6-element list; data[extno] is exts.getD extno (0, 0).
-/

/-- nblocks of extent e (the C reads data[e].nblocks). -/
def extCnt (exts : List (Nat × Nat)) (e : Nat) : Nat := (exts.getD e (0, 0)).2

/-- startblkno of extent e (the C reads data[e].startblkno). -/
def extStart (exts : List (Nat × Nat)) (e : Nat) : Nat := (exts.getD e (0, 0)).1

/-- Total number of blocks of a list of extents. -/
def sumCnt (l : List (Nat × Nat)) : Nat := l.foldr (fun p a => p.2 + a) 0

/-- The disk block holding file block f under the extent array: walk the
extents subtracting their lengths (the specification-level view of the
extent walk readi performs incrementally). -/
def extSearch : List (Nat × Nat) → Nat → Option Nat
  | [], _ => none
  | (s, c) :: rest, f => if f < c then some (s + f) else extSearch rest (f - c)

/-- The extent list covers its first k file blocks: every extent consumed
on the way is non-empty. -/
def coversB : List (Nat × Nat) → Nat → Bool
  | _, 0 => true
  | [], _ + 1 => false
  | (_, c) :: rest, k + 1 => decide (0 < c) && coversB rest (k + 1 - c)

/-- Byte j of the file contents determined by the extent array and the
disk: byte j % BSIZE of the disk block holding file block j / BSIZE. -/
def fileByte (disk : Nat → Nat → Nat) (exts : List (Nat × Nat)) (j : Nat) : Nat :=
  match extSearch exts (j / 512) with
  | some b => disk b (j % 512)
  | none => 0

/-- The for-loop of readi.  Arguments after exts: fuel, extno, extoff,
foff, off, n, tot, and the bytes copied to dst so far.  Each iteration
mirrors the source: assert the current extent is non-empty (none on
violation), move to the next extent when extoff has reached its nblocks
(asserting extno < 5), and if foff has reached off / BSIZE copy
min (n - tot, BSIZE - off % BSIZE) bytes from the block
startblkno + extoff. -/
def readiLoop (disk : Nat → Nat → Nat) (exts : List (Nat × Nat)) :
    Nat → Nat → Nat → Nat → Nat → Nat → Nat → List Nat → Option (List Nat)
  | 0, _, _, _, _, _, _, _ => none
  | fuel + 1, extno, extoff, foff, off, n, tot, acc =>
    if tot < n then
      if extCnt exts extno = 0 then none
      else if extCnt exts extno ≤ extoff ∧ 5 ≤ extno then none
      else
        let extno' := if extCnt exts extno ≤ extoff then extno + 1 else extno
        let extoff' := if extCnt exts extno ≤ extoff then 0 else extoff
        if off / 512 ≤ foff then
          readiLoop disk exts fuel extno' (extoff' + 1) (foff + 1)
            (off + min (n - tot) (512 - off % 512)) n
            (tot + min (n - tot) (512 - off % 512))
            (acc ++ (List.range (min (n - tot) (512 - off % 512))).map fun i =>
              disk (extStart exts extno' + extoff') (off % 512 + i))
        else
          readiLoop disk exts fuel extno' (extoff' + 1) (foff + 1) off n tot acc
    else some acc

/-- readi on a non-device inode: return -1 when off > size or off + n
overflows uint32; otherwise clip n to size - off and run the loop (with
fuel amply covering the off / BSIZE skip iterations plus one iteration per
byte).  The result pairs the returned count with the bytes stored to
dst. -/
def readi (disk : Nat → Nat → Nat) (exts : List (Nat × Nat))
    (size off n : Nat) : Option (Int × List Nat) :=
  if size < off ∨ (off + n) % 4294967296 < off then some (-1, [])
  else
    let n' := if size < off + n then size - off else n
    (readiLoop disk exts (off / 512 + n' + 1) 0 0 0 off n' 0 []).map
      fun bs => ((n' : Int), bs)

/-- Taking one more extent adds the nblocks of the next extent to the
block count of the prefix. -/
theorem sumCnt_take_succ (exts : List (Nat × Nat)) :
    ∀ e, sumCnt (exts.take (e + 1)) = sumCnt (exts.take e) + extCnt exts e := by
  induction exts with
  | nil => intro e; simp [sumCnt, extCnt]
  | cons x xs ih =>
      intro e
      cases e with
      | zero => simp [sumCnt, extCnt]
      | succ e' =>
          simp only [List.take_succ_cons, sumCnt, List.foldr_cons]
          have := ih e'
          simp only [sumCnt] at this
          rw [this]
          simp [extCnt]
          omega

/-- If the extents cover K blocks and the first e extents hold fewer than K
blocks, extent e exists and is non-empty. -/
theorem covers_pos : ∀ (exts : List (Nat × Nat)) (K : Nat),
    coversB exts K = true → ∀ e, sumCnt (exts.take e) < K →
      e < exts.length ∧ 0 < extCnt exts e := by
  intro exts
  induction exts with
  | nil =>
      intro K hc e hs
      cases K with
      | zero => omega
      | succ k => simp [coversB] at hc
  | cons x xs ih =>
      intro K hc e hs
      cases K with
      | zero => omega
      | succ k =>
          obtain ⟨hx, hrest⟩ := by simpa [coversB] using hc
          cases e with
          | zero =>
              refine ⟨by simp, ?_⟩
              simpa [extCnt] using hx
          | succ e' =>
              have hs' : sumCnt (xs.take e') < k + 1 - x.2 := by
                simp only [List.take_succ_cons, sumCnt, List.foldr_cons] at hs
                simp only [sumCnt]
                omega
              have := ih (k + 1 - x.2) hrest e' hs'
              refine ⟨by simpa using this.1, ?_⟩
              simpa [extCnt] using this.2

/-- Searching for a block past the first e extents equals searching the
remaining extents for the relative block. -/
theorem extSearch_split (exts : List (Nat × Nat)) :
    ∀ (e r : Nat),
      extSearch exts (sumCnt (exts.take e) + r) = extSearch (exts.drop e) r := by
  induction exts with
  | nil =>
      intro e r
      simp [extSearch, sumCnt]
  | cons x xs ih =>
      intro e r
      cases e with
      | zero => simp [sumCnt]
      | succ e' =>
          simp only [List.take_succ_cons, List.drop_succ_cons]
          have hsum : sumCnt (x :: xs.take e') = x.2 + sumCnt (xs.take e') := by
            simp [sumCnt]
          rw [hsum, extSearch]
          have hge : ¬ (x.2 + sumCnt (xs.take e') + r < x.2) := by omega
          rw [if_neg hge]
          have hsub : x.2 + sumCnt (List.take e' xs) + r - x.2
              = sumCnt (List.take e' xs) + r := by
            omega
          rw [hsub, ih e' r]

/-- Searching within extent e (offset below its nblocks) yields its
startblkno plus the offset. -/
theorem extSearch_drop_lt (exts : List (Nat × Nat)) (e o : Nat)
    (he : e < exts.length) (ho : o < extCnt exts e) :
    extSearch (exts.drop e) o = some (extStart exts e + o) := by
  rw [List.drop_eq_getElem_cons he, extSearch]
  have hcnt : extCnt exts e = exts[e].2 := by
    simp [extCnt, List.getD_eq_getElem?_getD, List.getElem?_eq_getElem he]
  have hst : extStart exts e = exts[e].1 := by
    simp [extStart, List.getD_eq_getElem?_getD, List.getElem?_eq_getElem he]
  rw [hcnt] at ho
  rw [hst]
  exact if_pos ho

/-- One normalization step of the extent walk: at a covered position the
asserts of readi hold, and after the optional move to the next extent the
walk points at the disk block extSearch names for file block foff. -/
theorem walkStep (exts : List (Nat × Nat)) (K : Nat)
    (hcov : coversB exts K = true) (hlen : exts.length = 6)
    (extno extoff foff : Nat)
    (hfoff : foff = sumCnt (exts.take extno) + extoff)
    (hext : extoff ≤ extCnt exts extno) (hK : foff < K) :
    extCnt exts extno ≠ 0
    ∧ ¬ (extCnt exts extno ≤ extoff ∧ 5 ≤ extno)
    ∧ (foff = sumCnt (exts.take (if extCnt exts extno ≤ extoff then extno + 1 else extno))
          + (if extCnt exts extno ≤ extoff then 0 else extoff)
        ∧ (if extCnt exts extno ≤ extoff then 0 else extoff)
          < extCnt exts (if extCnt exts extno ≤ extoff then extno + 1 else extno)
        ∧ extSearch exts foff
          = some (extStart exts (if extCnt exts extno ≤ extoff then extno + 1 else extno)
              + (if extCnt exts extno ≤ extoff then 0 else extoff))) := by
  by_cases hmove : extCnt exts extno ≤ extoff
  · have heq : extoff = extCnt exts extno := by omega
    have hsum1 : sumCnt (exts.take (extno + 1)) = foff := by
      rw [sumCnt_take_succ]; omega
    have hpos1 : extno + 1 < exts.length ∧ 0 < extCnt exts (extno + 1) :=
      covers_pos exts K hcov (extno + 1) (by omega)
    have hpos0 : extno < exts.length ∧ 0 < extCnt exts extno := by
      apply covers_pos exts K hcov extno
      omega
    refine ⟨by omega, by omega, ?_, ?_, ?_⟩
    · simp only [if_pos hmove]; omega
    · simp only [if_pos hmove]; omega
    · simp only [if_pos hmove]
      have h1 : foff = sumCnt (exts.take (extno + 1)) + 0 := by omega
      rw [h1, extSearch_split]
      exact extSearch_drop_lt exts (extno + 1) 0 hpos1.1 hpos1.2
  · have hlt : extoff < extCnt exts extno := by omega
    have hpos0 : extno < exts.length ∧ 0 < extCnt exts extno := by
      apply covers_pos exts K hcov extno
      omega
    refine ⟨by omega, by omega, ?_, ?_, ?_⟩
    · simp only [if_neg hmove]; omega
    · simp only [if_neg hmove]; omega
    · simp only [if_neg hmove]
      rw [hfoff, extSearch_split]
      exact extSearch_drop_lt exts extno extoff hpos0.1 hlt

/-- Gluing two mapped ranges into one. -/
theorem range_map_glue (f g h2 : Nat → Nat) (m r : Nat)
    (hg : ∀ i < m, g i = f i) (hh : ∀ i < r, h2 i = f (m + i)) :
    (List.range m).map g ++ (List.range r).map h2 = (List.range (m + r)).map f := by
  rw [List.range_add, List.map_append, List.map_map]
  congr 1
  · exact List.map_congr_left fun a ha => hg a (List.mem_range.mp ha)
  · refine List.map_congr_left fun a ha => ?_
    simp only [Function.comp_apply]
    exact hh a (List.mem_range.mp ha)

/-- The copy phase of the readi loop: once foff has reached off / BSIZE,
the loop appends exactly the file bytes at offsets off .. off + (n-tot)-1
to the bytes gathered so far. -/
theorem copyPhase (disk : Nat → Nat → Nat) (exts : List (Nat × Nat)) (K : Nat)
    (hcov : coversB exts K = true) (hlen : exts.length = 6) :
    ∀ (fuel : Nat) (off n tot extno extoff foff : Nat) (acc : List Nat),
      foff = sumCnt (exts.take extno) + extoff →
      extoff ≤ extCnt exts extno →
      (tot < n → off / 512 = foff) →
      off + (n - tot) ≤ 512 * K →
      tot ≤ n →
      n - tot < fuel →
      readiLoop disk exts fuel extno extoff foff off n tot acc
        = some (acc ++ (List.range (n - tot)).map fun i =>
            fileByte disk exts (off + i)) := by
  intro fuel
  induction fuel with
  | zero => intro off n tot extno extoff foff acc _ _ _ _ _ hfuel; omega
  | succ fuel ih =>
      intro off n tot extno extoff foff acc hfoff hext hblk hbound htot hfuel
      by_cases hlt : tot < n
      · have hb := hblk hlt
        have hK : foff < K := by omega
        obtain ⟨h1, h2, h3, h4, h5⟩ :=
          walkStep exts K hcov hlen extno extoff foff hfoff hext hK
        rw [readiLoop]
        simp only [if_pos hlt, if_neg h1, if_neg h2, if_pos (le_of_eq hb)]
        set eno := if extCnt exts extno ≤ extoff then extno + 1 else extno with heno
        set eoff := if extCnt exts extno ≤ extoff then 0 else extoff with heoff
        set m := min (n - tot) (512 - off % 512) with hm
        rw [ih (off + m) n (tot + m) eno (eoff + 1) (foff + 1) _
              (by omega) (by omega) (fun h => by omega) (by omega) (by omega)
              (by omega)]
        refine congrArg some ?_
        rw [List.append_assoc]
        have key : (List.range m).map
              (fun i => disk (extStart exts eno + eoff) (off % 512 + i))
            ++ (List.range (n - (tot + m))).map
              (fun i => fileByte disk exts (off + m + i))
            = (List.range (n - tot)).map (fun i => fileByte disk exts (off + i)) := by
          have hsplit : n - tot = m + (n - (tot + m)) := by omega
          rw [hsplit]
          apply range_map_glue
          · intro i hi
            have hmod : off % 512 + i = (off + i) % 512 := by omega
            have hdiv : (off + i) / 512 = foff := by omega
            rw [hmod]
            show disk (extStart exts eno + eoff) ((off + i) % 512)
              = fileByte disk exts (off + i)
            rw [fileByte, hdiv, h5]
          · intro i hi
            congr 1
            omega
        rw [key]
      · rw [readiLoop, if_neg hlt]
        have h0 : n - tot = 0 := by omega
        rw [h0]
        simp

/-- The skip phase of the readi loop: from any position at or before
off / BSIZE with empty accumulator, the loop produces exactly the file
bytes at offsets off .. off + n - 1. -/
theorem skipPhase (disk : Nat → Nat → Nat) (exts : List (Nat × Nat)) (K : Nat)
    (hcov : coversB exts K = true) (hlen : exts.length = 6) :
    ∀ (fuel : Nat) (off n extno extoff foff : Nat),
      foff = sumCnt (exts.take extno) + extoff →
      extoff ≤ extCnt exts extno →
      foff ≤ off / 512 →
      off + n ≤ 512 * K →
      (off / 512 - foff) + n < fuel →
      readiLoop disk exts fuel extno extoff foff off n 0 []
        = some ((List.range n).map fun i => fileByte disk exts (off + i)) := by
  intro fuel
  induction fuel with
  | zero => intro off n extno extoff foff _ _ _ _ hfuel; omega
  | succ fuel ih =>
      intro off n extno extoff foff hfoff hext hskip hbound hfuel
      by_cases hn : 0 < n
      · by_cases heq : foff = off / 512
        · have := copyPhase disk exts K hcov hlen (fuel + 1) off n 0 extno extoff
            foff [] hfoff hext (fun _ => heq.symm) (by omega) (by omega) (by omega)
          simpa using this
        · have hK : foff < K := by omega
          obtain ⟨h1, h2, h3, h4, _⟩ :=
            walkStep exts K hcov hlen extno extoff foff hfoff hext hK
          rw [readiLoop]
          simp only [if_pos hn, if_neg h1, if_neg h2,
            if_neg (show ¬ off / 512 ≤ foff by omega)]
          exact ih off n _ _ (foff + 1) (by omega) (by omega) (by omega)
            (by omega) (by omega)
      · have h0 : n = 0 := by omega
        subst h0
        rw [readiLoop]
        simp

/-- C7: on a non-device inode whose six extents cover all file blocks,
readi returns -1 (reading nothing) exactly when off is strictly beyond the
file size or off + n overflows uint32; otherwise it returns
min n (size - off) — the requested count clipped at the file size — and dst
receives exactly the file contents at byte offsets
off .. off + min n (size - off) - 1. -/
theorem readi_spec (disk : Nat → Nat → Nat) (exts : List (Nat × Nat))
    (size off n : Nat) (hlen : exts.length = 6)
    (hcov : coversB exts ((size + 511) / 512) = true) :
    readi disk exts size off n =
      if size < off ∨ (off + n) % 4294967296 < off then some (-1, [])
      else some (((min n (size - off) : Nat) : Int),
        (List.range (min n (size - off))).map fun i =>
          fileByte disk exts (off + i)) := by
  by_cases herr : size < off ∨ (off + n) % 4294967296 < off
  · rw [readi, if_pos herr, if_pos herr]
  · rw [readi, if_neg herr, if_neg herr]
    push_neg at herr
    have hn' : (if size < off + n then size - off else n) = min n (size - off) := by
      split_ifs <;> omega
    simp only [hn']
    rw [skipPhase disk exts ((size + 511) / 512) hcov hlen
          (off / 512 + min n (size - off) + 1) off (min n (size - off)) 0 0 0
          (by simp [sumCnt]) (by omega) (by omega) (by omega) (by omega)]
    simp

/-- Witness for readi_spec: a 1500-byte file whose extents are one block at
10 and two blocks at 20, on the disk whose byte o of block b reads
1000 b + o; reading 5 bytes at offset 510 returns 5 and the two final bytes
of block 10 followed by the first three bytes of block 20. -/
theorem readi_spec_witness :
    readi (fun b o => 1000 * b + o)
        [(10, 1), (20, 2), (0, 0), (0, 0), (0, 0), (0, 0)] 1500 510 5
      = some (5, [10510, 10511, 20000, 20001, 20002]) := by
  have h := readi_spec (fun b o => 1000 * b + o)
      [(10, 1), (20, 2), (0, 0), (0, 0), (0, 0), (0, 0)] 1500 510 5 rfl (by decide)
  rw [h]
  decide

/-! ## writei transaction structure (src/kernel/fs.c, lines 368-460)

writei on a regular file walks blocks like readi, but around EVERY
block-copy iteration it opens and commits its own log transaction when the
caller did not already hold the log lock (log_started, computed once from
holdingsleep(&loglock)): the calls to begin_tx and commit_tx sit INSIDE the
for-loop body.  Each iteration stages the data block via log_write and then
writes the updated dinode back through a nested
concurrent_writei(inodefile, ...), which runs the same loop with
log_started = true (the lock is held by then) and flushes the dinode block
of the inode file plus — through the ip == inodefile branch — the first
inode-file block at sb.inodestart.  The embedding produces the TRACE of
begin_tx / commit_tx / log_write events of one writei call; the block
allocation path (balloc on an empty extent) and out-of-bounds extent
accesses are outside the modelled fragment (none).  The early-return paths
(off > size or uint32 overflow of off + n) produce the empty trace.
-/

/-- A log-interface event of a writei run: begin_tx, commit_tx, or
log_write of a home block number. -/
inductive LogEv
  | beginTx
  | commitTx
  | logWrite (blockno : Nat)
  deriving DecidableEq

/-- Number of beginTx events in a trace. -/
def countBegin : List LogEv → Nat
  | [] => 0
  | .beginTx :: r => countBegin r + 1
  | _ :: r => countBegin r

/-- Number of commitTx events in a trace. -/
def countCommit : List LogEv → Nat
  | [] => 0
  | .commitTx :: r => countCommit r + 1
  | _ :: r => countCommit r

/-- The trace consists of logWrite events only. -/
def onlyWrites : List LogEv → Bool
  | [] => true
  | .logWrite _ :: r => onlyWrites r
  | .beginTx :: _ => false
  | .commitTx :: _ => false

/-- Well-bracketed at depth d: every logWrite happens strictly inside a
begin_tx .. commit_tx pair, pairs never nest, and every pair is closed. -/
def bracketOK : Nat → List LogEv → Bool
  | d, [] => d == 0
  | d, .beginTx :: r => (d == 0) && bracketOK 1 r
  | d, .commitTx :: r => (d == 1) && bracketOK 0 r
  | d, .logWrite _ :: r => (d == 1) && bracketOK d r

/-- The in-loop extent advance of writei: when extoff has consumed a
non-empty extent, move to the next extent (writei, unlike readi, also
requires nblocks != 0 to move). -/
def extMove (exts : List (Nat × Nat)) (extno extoff : Nat) : Nat × Nat :=
  if extCnt exts extno ≤ extoff ∧ extCnt exts extno ≠ 0 then (extno + 1, 0)
  else (extno, extoff)

/-- The writei for-loop for ip == inodefile: per copy iteration, an
optional begin_tx, the log_write of the inode-file data block, the
log_write of block sb.inodestart from the dinode write-back else-branch,
and an optional commit_tx.  none models the unmodelled balloc path, an
out-of-bounds extent index, or exhausted fuel. -/
def wiIFLoop (exts : List (Nat × Nat)) (inodestart : Nat) (ls : Bool) :
    Nat → Nat → Nat → Nat → Nat → Nat → Nat → Option (List LogEv)
  | 0, _, _, _, _, _, _ => none
  | fuel + 1, extno, extoff, foff, off, n, tot =>
    if tot < n then
      if 6 ≤ (extMove exts extno extoff).1 then none
      else if off / 512 ≤ foff then
        if extCnt exts (extMove exts extno extoff).1 = 0 then none
        else
          (wiIFLoop exts inodestart ls fuel (extMove exts extno extoff).1
              ((extMove exts extno extoff).2 + 1) (foff + 1)
              (off + min (n - tot) (512 - off % 512)) n
              (tot + min (n - tot) (512 - off % 512))).map
            fun rest =>
              (if ls then [] else [LogEv.beginTx])
                ++ LogEv.logWrite
                    (extStart exts (extMove exts extno extoff).1
                      + (extMove exts extno extoff).2)
                  :: LogEv.logWrite inodestart
                  :: ((if ls then [] else [LogEv.commitTx]) ++ rest)
      else wiIFLoop exts inodestart ls fuel (extMove exts extno extoff).1
        ((extMove exts extno extoff).2 + 1) (foff + 1) off n tot
    else some []

/-- writei(inodefile, dip, inum * 64, 64) as called for the dinode
write-back: at that point the log lock is held, so log_started is true; an
off-beyond-size or overflowing call returns -1 having emitted nothing. -/
def wiIFTrace (exts : List (Nat × Nat)) (inodestart size off n : Nat) :
    Option (List LogEv) :=
  if size < off ∨ (off + n) % 4294967296 < off then some []
  else wiIFLoop exts inodestart true (off / 512 + n + 1) 0 0 0 off n 0

/-- The writei for-loop for a regular file: per copy iteration, an
optional begin_tx (only when the caller held no transaction), the
log_write of the staged data block, the whole event trace of the nested
inode-file writei, and an optional commit_tx. -/
def wiRegLoop (exts ifExts : List (Nat × Nat)) (inodestart ifSize inum : Nat)
    (ls : Bool) :
    Nat → Nat → Nat → Nat → Nat → Nat → Nat → Option (List LogEv)
  | 0, _, _, _, _, _, _ => none
  | fuel + 1, extno, extoff, foff, off, n, tot =>
    if tot < n then
      if 6 ≤ (extMove exts extno extoff).1 then none
      else if off / 512 ≤ foff then
        if extCnt exts (extMove exts extno extoff).1 = 0 then none
        else
          match wiIFTrace ifExts inodestart ifSize (inum * 64) 64 with
          | none => none
          | some inner =>
            (wiRegLoop exts ifExts inodestart ifSize inum ls fuel
                (extMove exts extno extoff).1 ((extMove exts extno extoff).2 + 1)
                (foff + 1) (off + min (n - tot) (512 - off % 512)) n
                (tot + min (n - tot) (512 - off % 512))).map
              fun rest =>
                (if ls then [] else [LogEv.beginTx])
                  ++ LogEv.logWrite
                      (extStart exts (extMove exts extno extoff).1
                        + (extMove exts extno extoff).2)
                    :: (inner ++ ((if ls then [] else [LogEv.commitTx]) ++ rest))
      else wiRegLoop exts ifExts inodestart ifSize inum ls fuel
        (extMove exts extno extoff).1 ((extMove exts extno extoff).2 + 1)
        (foff + 1) off n tot
    else some []

/-- The event trace of one writei call on a regular file: empty for the
-1 early returns, otherwise the loop trace (ls is log_started, i.e.
whether the caller already held the log lock). -/
def writeiTrace (exts ifExts : List (Nat × Nat))
    (inodestart ifSize inum size off n : Nat) (ls : Bool) :
    Option (List LogEv) :=
  if size < off ∨ (off + n) % 4294967296 < off then some []
  else wiRegLoop exts ifExts inodestart ifSize inum ls
    (off / 512 + n + 1) 0 0 0 off n 0

/-- onlyWrites distributes over append. -/
theorem onlyWrites_append (a b : List LogEv) :
    onlyWrites (a ++ b) = (onlyWrites a && onlyWrites b) := by
  induction a with
  | nil => simp [onlyWrites]
  | cons x r ih =>
      cases x <;> simp [onlyWrites, ih]

/-- With the log lock already held, the inode-file writei loop emits no
begin_tx or commit_tx — only log_write events. -/
theorem wiIFLoop_onlyWrites (exts : List (Nat × Nat)) (inodestart : Nat) :
    ∀ (fuel extno extoff foff off n tot : Nat) (t : List LogEv),
      wiIFLoop exts inodestart true fuel extno extoff foff off n tot = some t →
      onlyWrites t = true := by
  intro fuel
  induction fuel with
  | zero => intro _ _ _ _ _ _ t h; exact absurd h (by simp [wiIFLoop])
  | succ fuel ih =>
      intro extno extoff foff off n tot t h
      rw [wiIFLoop] at h
      by_cases h1 : tot < n
      · rw [if_pos h1] at h
        by_cases h2 : 6 ≤ (extMove exts extno extoff).1
        · rw [if_pos h2] at h
          exact absurd h (by simp)
        · rw [if_neg h2] at h
          by_cases h3 : off / 512 ≤ foff
          · rw [if_pos h3] at h
            by_cases h4 : extCnt exts (extMove exts extno extoff).1 = 0
            · rw [if_pos h4] at h
              exact absurd h (by simp)
            · rw [if_neg h4] at h
              obtain ⟨rest, hrest, hmap⟩ := Option.map_eq_some'.mp h
              subst hmap
              have hw := ih _ _ _ _ _ _ rest hrest
              simp [onlyWrites, onlyWrites_append, hw]
          · rw [if_neg h3] at h
            exact ih _ _ _ _ _ _ t h
      · rw [if_neg h1] at h
        cases h
        rfl

/-- The nested dinode write-back emits only log_write events. -/
theorem wiIFTrace_onlyWrites (exts : List (Nat × Nat)) (inodestart size off n : Nat)
    (t : List LogEv) (h : wiIFTrace exts inodestart size off n = some t) :
    onlyWrites t = true := by
  rw [wiIFTrace] at h
  split_ifs at h with h1
  · cases h; rfl
  · exact wiIFLoop_onlyWrites exts inodestart _ _ _ _ _ _ _ t h

/-- Inside an open transaction, a run of log_write events keeps the
bracket discipline. -/
theorem bracketOK_writes (ws : List LogEv) (hw : onlyWrites ws = true) :
    ∀ rest, bracketOK 1 (ws ++ rest) = bracketOK 1 rest := by
  induction ws with
  | nil => intro rest; rfl
  | cons x r ih =>
      intro rest
      cases x with
      | beginTx => simp [onlyWrites] at hw
      | commitTx => simp [onlyWrites] at hw
      | logWrite b =>
          simp only [onlyWrites] at hw
          simp [bracketOK, ih hw rest]

/-- A trace of only log_write events has no begin_tx or commit_tx. -/
theorem countBegin_writes (ws : List LogEv) (hw : onlyWrites ws = true) :
    countBegin ws = 0 ∧ countCommit ws = 0 := by
  induction ws with
  | nil => exact ⟨rfl, rfl⟩
  | cons x r ih =>
      cases x with
      | beginTx => simp [onlyWrites] at hw
      | commitTx => simp [onlyWrites] at hw
      | logWrite b =>
          simp only [onlyWrites] at hw
          obtain ⟨h1, h2⟩ := ih hw
          exact ⟨by simp [countBegin, h1], by simp [countCommit, h2]⟩

/-- A writei loop run that opened its own transactions is well-bracketed:
every log_write sits inside one of the begin_tx .. commit_tx pairs the
loop itself created. -/
theorem wiRegLoop_false_bracketOK (exts ifExts : List (Nat × Nat))
    (inodestart ifSize inum : Nat) :
    ∀ (fuel extno extoff foff off n tot : Nat) (t : List LogEv),
      wiRegLoop exts ifExts inodestart ifSize inum false fuel extno extoff foff
          off n tot = some t →
      bracketOK 0 t = true := by
  intro fuel
  induction fuel with
  | zero => intro _ _ _ _ _ _ t h; exact absurd h (by simp [wiRegLoop])
  | succ fuel ih =>
      intro extno extoff foff off n tot t h
      rw [wiRegLoop] at h
      by_cases h1 : tot < n
      · rw [if_pos h1] at h
        by_cases h2 : 6 ≤ (extMove exts extno extoff).1
        · rw [if_pos h2] at h
          exact absurd h (by simp)
        · rw [if_neg h2] at h
          by_cases h3 : off / 512 ≤ foff
          · rw [if_pos h3] at h
            by_cases h4 : extCnt exts (extMove exts extno extoff).1 = 0
            · rw [if_pos h4] at h
              exact absurd h (by simp)
            · rw [if_neg h4] at h
              rcases hI : wiIFTrace ifExts inodestart ifSize (inum * 64) 64 with
                _ | inner
              · rw [hI] at h
                exact absurd h (by simp)
              · rw [hI] at h
                obtain ⟨rest, hrest, hmap⟩ := Option.map_eq_some'.mp h
                subst hmap
                have hiw := wiIFTrace_onlyWrites ifExts inodestart ifSize _ _
                  inner hI
                have hrb := ih _ _ _ _ _ _ rest hrest
                simp [bracketOK, bracketOK_writes inner hiw, hrb]
          · rw [if_neg h3] at h
            exact ih _ _ _ _ _ _ t h
      · rw [if_neg h1] at h
        cases h
        rfl

/-- A writei loop run inside a caller transaction emits only log_write
events. -/
theorem wiRegLoop_true_onlyWrites (exts ifExts : List (Nat × Nat))
    (inodestart ifSize inum : Nat) :
    ∀ (fuel extno extoff foff off n tot : Nat) (t : List LogEv),
      wiRegLoop exts ifExts inodestart ifSize inum true fuel extno extoff foff
          off n tot = some t →
      onlyWrites t = true := by
  intro fuel
  induction fuel with
  | zero => intro _ _ _ _ _ _ t h; exact absurd h (by simp [wiRegLoop])
  | succ fuel ih =>
      intro extno extoff foff off n tot t h
      rw [wiRegLoop] at h
      by_cases h1 : tot < n
      · rw [if_pos h1] at h
        by_cases h2 : 6 ≤ (extMove exts extno extoff).1
        · rw [if_pos h2] at h
          exact absurd h (by simp)
        · rw [if_neg h2] at h
          by_cases h3 : off / 512 ≤ foff
          · rw [if_pos h3] at h
            by_cases h4 : extCnt exts (extMove exts extno extoff).1 = 0
            · rw [if_pos h4] at h
              exact absurd h (by simp)
            · rw [if_neg h4] at h
              rcases hI : wiIFTrace ifExts inodestart ifSize (inum * 64) 64 with
                _ | inner
              · rw [hI] at h
                exact absurd h (by simp)
              · rw [hI] at h
                obtain ⟨rest, hrest, hmap⟩ := Option.map_eq_some'.mp h
                subst hmap
                have hiw := wiIFTrace_onlyWrites ifExts inodestart ifSize _ _
                  inner hI
                have hrw := ih _ _ _ _ _ _ rest hrest
                simp [onlyWrites, onlyWrites_append, hiw, hrw]
          · rw [if_neg h3] at h
            exact ih _ _ _ _ _ _ t h
      · rw [if_neg h1] at h
        cases h
        rfl

/-- C1 amended: every disk-block mutation of a writei call that starts
outside a running transaction happens inside a begin_tx .. commit_tx pair
opened and committed by writei itself — but one pair per block-copy
iteration, not a single pair for the whole call (see the counterexample);
and a writei call inside a running transaction performs no begin_tx or
commit_tx of its own. -/
theorem writei_tx_bracketing (exts ifExts : List (Nat × Nat))
    (inodestart ifSize inum size off n : Nat) (ls : Bool) (t : List LogEv)
    (h : writeiTrace exts ifExts inodestart ifSize inum size off n ls = some t) :
    (ls = false → bracketOK 0 t = true)
    ∧ (ls = true → countBegin t = 0 ∧ countCommit t = 0) := by
  rw [writeiTrace] at h
  split_ifs at h with h1
  · cases h
    exact ⟨fun _ => rfl, fun _ => ⟨rfl, rfl⟩⟩
  · constructor
    · intro hls
      subst hls
      exact wiRegLoop_false_bracketOK exts ifExts inodestart ifSize inum
        _ _ _ _ _ _ _ t h
    · intro hls
      subst hls
      exact countBegin_writes t
        (wiRegLoop_true_onlyWrites exts ifExts inodestart ifSize inum
          _ _ _ _ _ _ _ t h)

/-- C1 fails on the code: a writei of 513 bytes at offset 0 (two copy
iterations) starting outside a transaction emits TWO begin_tx / commit_tx
pairs — one around each block-granular step — not the single transaction
around the whole call that the claim asserts.  (File inode 1 with one
32-block extent at 100, inode file with one 32-block extent at 200 and
first block 3.) -/
theorem writei_two_transactions_cx :
    writeiTrace [(100, 32), (0, 0), (0, 0), (0, 0), (0, 0), (0, 0)]
        [(200, 32), (0, 0), (0, 0), (0, 0), (0, 0), (0, 0)] 3 128 1 4096 0 513 false
      = some [.beginTx, .logWrite 100, .logWrite 200, .logWrite 3, .commitTx,
              .beginTx, .logWrite 101, .logWrite 200, .logWrite 3, .commitTx]
    ∧ countBegin [LogEv.beginTx, .logWrite 100, .logWrite 200, .logWrite 3, .commitTx,
              .beginTx, .logWrite 101, .logWrite 200, .logWrite 3, .commitTx] = 2
    ∧ countCommit [LogEv.beginTx, .logWrite 100, .logWrite 200, .logWrite 3, .commitTx,
              .beginTx, .logWrite 101, .logWrite 200, .logWrite 3, .commitTx] = 2
    ∧ countBegin [LogEv.beginTx, .logWrite 100, .logWrite 200, .logWrite 3, .commitTx,
              .beginTx, .logWrite 101, .logWrite 200, .logWrite 3, .commitTx] ≠ 1 := by
  decide

/-- C1 amended: every disk-block mutation of a writei call that starts
outside a running transaction happens inside a begin_tx .. commit_tx pair
opened and committed by writei itself — but one pair per block-copy
iteration, not a single pair for the whole call (see the counterexample);
and a writei call inside a running transaction performs no begin_tx or
commit_tx of its own. -/
theorem writei_tx_bracketing_witness :
    bracketOK 0 [LogEv.beginTx, .logWrite 100, .logWrite 200, .logWrite 3, .commitTx,
      .beginTx, .logWrite 101, .logWrite 200, .logWrite 3, .commitTx] = true := by
  exact (writei_tx_bracketing [(100, 32), (0, 0), (0, 0), (0, 0), (0, 0), (0, 0)]
      [(200, 32), (0, 0), (0, 0), (0, 0), (0, 0), (0, 0)] 3 128 1 4096 0 513 false
      [.beginTx, .logWrite 100, .logWrite 200, .logWrite 3, .commitTx,
       .beginTx, .logWrite 101, .logWrite 200, .logWrite 3, .commitTx]
      (by decide)).1 rfl


end Xv6
